import Mathlib

/-!
Verification of the diff-parsing core of the `piston` repository
(`src/parsing.py`) against its natural-language specification.

The Python source is shallowly embedded below.  `parse_diff_patch` in the
source works in two stages: an external tree-sitter diff grammar turns the
patch bytes into a tree of `block` / `hunk` / `changes` nodes, and the Python
code then walks that tree with structural queries.  The tree-sitter grammars
are external libraries, so the embedding starts at the point where the parsed
structure is available: a `RawBlock` holds exactly the data the source reads
off a `block` node (the captured file names, and the hunk nodes in the order
the structural query returns them), and a `RawHunk` holds the data read off a
`hunk` node (the captured `linerange` texts, the hunk's start byte, and the
raw change-line texts that are the children of its `changes` node).  The
per-line identifier extraction (`parse_line` in the source) runs the
source-language grammar on one line of text; that grammar is likewise
external and is modelled as an oracle argument `String → Except String (List
(String × Nat))` standing for `query("(identifier) @identifier")` captures
(name, start column) on the parsed line, with `Except.error` standing for a
raised exception.  Everything downstream of those oracle boundaries is
translated directly from the Python source.
-/

/-- Whitespace characters removed by Python's `str.strip()` (the ASCII part
of `string.whitespace`; the source only ever strips ASCII text). -/
def isPyWhitespace (c : Char) : Bool :=
  c == ' ' || c == '\t' || c == '\n' || c == '\r' || c == '\x0b' || c == '\x0c'

/-- Python `s.strip()`: remove leading and trailing whitespace. -/
def pyStrip (s : String) : String :=
  String.mk (((s.data.dropWhile isPyWhitespace).reverse.dropWhile isPyWhitespace).reverse)

/-- Python `s[1:]`: drop the first character. -/
def pyDrop1 (s : String) : String :=
  String.mk s.data.tail

/-- Python `s.startswith(c)` for a single-character `c`: test the first
character. -/
def pyStartsWith (s : String) (c : Char) : Bool :=
  match s.data with
  | [] => false
  | a :: _ => a == c

/-- Python `s.lower()` (the language tags used here are ASCII). -/
def pyLower (s : String) : String :=
  String.mk (s.data.map Char.toLower)

/-- Python `s.split(",")[0]`: the prefix of `s` before the first comma. -/
def pySplitCommaHead (s : String) : String :=
  String.mk (s.data.takeWhile (fun c => c != ','))

/-- Python `int(s)` on a decimal string, as `none` when `int` would raise
`ValueError`: surrounding whitespace is tolerated, then an optional sign and
one or more ASCII digits. -/
def pyInt? (s : String) : Option Int :=
  let t := pyStrip s
  let core := if pyStartsWith t '-' || pyStartsWith t '+' then pyDrop1 t else t
  if core.data ≠ [] ∧ core.data.all Char.isDigit then
    let n : Nat := core.data.foldl (fun acc c => acc * 10 + (c.toNat - 48)) 0
    if pyStartsWith t '-' then some (-(n : Int)) else some (n : Int)
  else
    none

deriving instance DecidableEq for Except

/-- Exceptions of the embedded code.  The source raises `ValueError` (from
`get_language_parser`); `malformedDiff` is the `MalformedDiffError` named by
the specification's error taxonomy, included so that claims about it can be
stated — the source never defines or raises it. -/
inductive PyError where
  | valueError (msg : String)
  | malformedDiff (msg : String)
deriving DecidableEq, Repr

/-- The two parsers the source can construct (`tree_sitter_diff` and
`tree_sitter_python` based). -/
inductive ParserKind where
  | diff
  | python
deriving DecidableEq, Repr

/-- Embeds `get_language_parser` from `src/src/parsing.py` (the name is
adjusted to Lean style): the comparison is on `language.lower()`, and an
unknown tag raises `ValueError`. -/
def getLanguageParser (language : String) : Except PyError ParserKind :=
  if pyLower language = "diff" then .ok ParserKind.diff
  else if pyLower language = "python" then .ok ParserKind.python
  else .error (.valueError ("Unsupported language: " ++ language))

/-- A name token with its zero-based column, as in the `Identifier` dataclass
of `src/src/parsing.py`. -/
structure Identifier where
  name : String
  character : Nat
deriving DecidableEq, Repr

/-- The behaviour of `parser.parse` plus the `"(identifier) @identifier"`
query on one line of text: the (name, start column) capture pairs in the
order the query returns them, or an error when the parse or the query
raises.  This stands for the external tree-sitter source-language grammar. -/
abbrev CaptureOracle := String → Except String (List (String × Nat))

/-- Stable insertion by an ascending natural key: `a` is placed before the
first element whose key is at least `key a`. -/
def pyInsertByKey (key : α → Nat) (a : α) : List α → List α
  | [] => [a]
  | b :: l => if key a ≤ key b then a :: b :: l else b :: pyInsertByKey key a l

/-- Stable ascending sort by a natural key.  This models Python's
`list.sort(key=...)` / `sorted(..., key=...)`: Python's sort is specified to
be stable and ascending by key, and any stable ascending sort computes the
same list. -/
def pySortByKey (key : α → Nat) : List α → List α
  | [] => []
  | a :: l => pyInsertByKey key a (pySortByKey key l)

/-- Embeds `parse_line` from `src/src/parsing.py`: on one line, collect the
identifier captures with non-empty text, sort them ascending by character
position, and degrade any internal exception to an empty list. -/
def parse_line (captures : CaptureOracle) (line : String) : List Identifier :=
  match captures line with
  | .error _ => []
  | .ok caps =>
      pySortByKey Identifier.character
        ((caps.filter (fun p => p.1 != "")).map (fun p => Identifier.mk p.1 p.2))

/-- The `ChangeType` enum of `src/src/parsing.py`. -/
inductive ChangeType where
  | Addition
  | Deletion
deriving DecidableEq, Repr

/-- The `Change` dataclass of `src/src/parsing.py`. -/
structure Change where
  line : Int
  text : String
  type : ChangeType
  identifiers : List Identifier
deriving DecidableEq, Repr

/-- The `Hunk` dataclass of `src/src/parsing.py`. -/
structure Hunk where
  old_file : Option String
  new_file : Option String
  changes : List Change
deriving DecidableEq, Repr

/-- The data `parse_diff_patch` reads off one `hunk` node of the diff tree:
`location` is the pair of `linerange` texts captured by the query
`(location (linerange) @old_line (linerange) @new_line)` (`none` when the
pattern does not match, e.g. the location header is absent or malformed);
`changes` is the list of texts of the children of the hunk's `changes` node
(`none` when the `(changes)` query captures nothing); `start_byte` is the
hunk node's start byte in the patch. -/
structure RawHunk where
  location : Option (String × String)
  changes : Option (List String)
  start_byte : Nat
deriving DecidableEq, Repr

/-- The data `parse_diff_patch` reads off one `block` node: the captured
`old_file`/`new_file` filename texts (`none` when absent), and the block's
hunk nodes in the order the `(hunk) @hunk` query returns them. -/
structure RawBlock where
  old_file : Option String
  new_file : Option String
  hunks : List RawHunk
deriving DecidableEq, Repr

/-- One captured `linerange` text, processed as in the source: the guard
`if ... and node.text:` makes empty text act as an absent capture, otherwise
`int(text.strip()[1:].split(",")[0])` is taken, whose `ValueError` is
modelled by `Except.error`. -/
def parseLineRangeCapture (s : String) : Except Unit (Option Int) :=
  if s = "" then .ok none
  else
    match pyInt? (pySplitCommaHead (pyDrop1 (pyStrip s))) with
    | some n => .ok (some n)
    | none => .error ()

/-- The per-hunk change loop of `parse_diff_patch`: each change node's text
is stripped; a leading `+` after stripping emits an Addition at
`new_line - 1` and advances `new_line`; a leading `-` after stripping emits a
Deletion at `old_line - 1` and advances `old_line`; anything else advances
both cursors and emits nothing. -/
def processChangeLines (captures : CaptureOracle) :
    List String → Int → Int → List Change
  | [], _, _ => []
  | raw :: rest, old_line, new_line =>
    let text := pyStrip raw
    if pyStartsWith text '+' then
      { line := new_line - 1, text := pyDrop1 text, type := ChangeType.Addition,
        identifiers := parse_line captures (pyDrop1 text) } ::
        processChangeLines captures rest old_line (new_line + 1)
    else if pyStartsWith text '-' then
      { line := old_line - 1, text := pyDrop1 text, type := ChangeType.Deletion,
        identifiers := parse_line captures (pyDrop1 text) } ::
        processChangeLines captures rest (old_line + 1) new_line
    else
      processChangeLines captures rest (old_line + 1) (new_line + 1)

/-- Outcome of one iteration of the per-block hunk loop: `skip` models
`continue`, `abort` models an exception escaping to the per-block `except`
(which abandons the rest of the block), `emit h` models `hunks.append(h)`. -/
inductive HunkStep where
  | skip
  | abort
  | emit (h : Hunk)
deriving DecidableEq, Repr

/-- One iteration of the hunk loop of `parse_diff_patch`: a hunk whose
location query captured nothing (or only empty texts) leaves both line
numbers `None` and is skipped; a present range text on which `int` raises
aborts the block; a hunk with no `changes` capture is skipped; otherwise a
`Hunk` is emitted with the change loop run from the two parsed starts. -/
def hunkStep (captures : CaptureOracle)
    (old_file new_file : Option String) (r : RawHunk) : HunkStep :=
  match r.location with
  | none => HunkStep.skip
  | some (ot, nt) =>
    match parseLineRangeCapture ot with
    | .error _ => HunkStep.abort
    | .ok oOpt =>
      match parseLineRangeCapture nt with
      | .error _ => HunkStep.abort
      | .ok nOpt =>
        match oOpt, nOpt with
        | some ol, some nl =>
          match r.changes with
          | none => HunkStep.skip
          | some lines =>
            HunkStep.emit
              { old_file := old_file, new_file := new_file,
                changes := processChangeLines captures lines ol nl }
        | _, _ => HunkStep.skip

/-- The per-block hunk loop of `parse_diff_patch`, over the hunk nodes
already sorted by start byte: `skip` continues, `abort` drops the rest of the
block (hunks appended earlier in the block are kept), `emit` appends. -/
def processHunks (captures : CaptureOracle)
    (old_file new_file : Option String) : List RawHunk → List Hunk
  | [] => []
  | r :: rest =>
    match hunkStep captures old_file new_file r with
    | HunkStep.skip => processHunks captures old_file new_file rest
    | HunkStep.abort => []
    | HunkStep.emit h => h :: processHunks captures old_file new_file rest

/-- A captured filename as the source uses it: the `and node.text:` guard
makes empty text act as absent, otherwise the text is stripped. -/
def blockFileName (o : Option String) : Option String :=
  match o with
  | some s => if s = "" then none else some (pyStrip s)
  | none => none

/-- Processing of one block: resolve the file names, sort the hunk nodes by
their start byte (`sorted(..., key=lambda x: x.start_byte)`), and run the
hunk loop. -/
def processBlock (captures : CaptureOracle) (b : RawBlock) : List Hunk :=
  processHunks captures (blockFileName b.old_file) (blockFileName b.new_file)
    (pySortByKey RawHunk.start_byte b.hunks)

/-- Embeds `parse_diff_patch` from `src/src/parsing.py`.  The parser for the
patch language is resolved first and the diff parser second, so an
unsupported `patch_language` raises before anything is parsed; the blocks are
then processed in the order the `(block) @block` query returned them (the
source does not re-sort the block captures), accumulating all hunks into one
list.  `blocks` is the block-query result; `captures` is the identifier
oracle for the resolved patch-language parser. -/
def parse_diff_patch (captures : CaptureOracle) (blocks : List RawBlock)
    (patch_language : String) : Except PyError (List Hunk) :=
  match getLanguageParser patch_language with
  | .error e => .error e
  | .ok _ =>
    match getLanguageParser "diff" with
    | .error e => .error e
    | .ok _ => .ok ((blocks.map (processBlock captures)).flatten)

/-- The two numeric range starts of a hunk, as `parse_diff_patch` extracts
them: available exactly when the location query captured both `linerange`
texts and `int` succeeds on both. -/
def RawHunk.startsOf (r : RawHunk) : Option (Int × Int) :=
  match r.location with
  | none => none
  | some (ot, nt) =>
    match parseLineRangeCapture ot, parseLineRangeCapture nt with
    | .ok (some a), .ok (some b) => some (a, b)
    | _, _ => none

/-- A hunk node on which `parse_diff_patch` takes the emitting path: both
range starts parse and the `changes` query captured a node. -/
def WellFormedRawHunk (r : RawHunk) : Prop :=
  (∃ p, r.startsOf = some p) ∧ ∃ lines, r.changes = some lines

/-- The `Hunk` that `parse_diff_patch` builds from a well-formed hunk node of
a block with the given resolved file names. -/
def hunkOfRaw (captures : CaptureOracle)
    (old_file new_file : Option String) (r : RawHunk) : Hunk :=
  { old_file := old_file, new_file := new_file,
    changes :=
      match r.startsOf with
      | some (ol, nl) => processChangeLines captures (r.changes.getD []) ol nl
      | none => [] }

/-- Claim-side re-indexer, following the words of the specification's Line
Re-indexer contract: the hunk's change lines are classified by their leading
character (a raw change line is marker-prefixed), a `+` line emits an
Addition at `new_cursor - 1` whose text is the remainder of the line, a `-`
line emits a Deletion at `old_cursor - 1`, and every other line advances both
cursors and emits nothing.  It is compared against `processChangeLines`,
which is what the source actually does. -/
def reindexAsSpecified (captures : CaptureOracle) :
    List String → Int → Int → List Change
  | [], _, _ => []
  | raw :: rest, old_line, new_line =>
    if pyStartsWith raw '+' then
      { line := new_line - 1, text := pyDrop1 raw, type := ChangeType.Addition,
        identifiers := parse_line captures (pyDrop1 raw) } ::
        reindexAsSpecified captures rest old_line (new_line + 1)
    else if pyStartsWith raw '-' then
      { line := old_line - 1, text := pyDrop1 raw, type := ChangeType.Deletion,
        identifiers := parse_line captures (pyDrop1 raw) } ::
        reindexAsSpecified captures rest (old_line + 1) new_line
    else
      reindexAsSpecified captures rest (old_line + 1) (new_line + 1)

/-- Claim-side text extraction, following the words of the specification's
data model: the line's content with the leading marker stripped and
surrounding whitespace trimmed. -/
def markerStrippedTrimmed (raw : String) : String :=
  pyStrip (if pyStartsWith raw '+' || pyStartsWith raw '-' then pyDrop1 raw else raw)

/-- A change line that emits a `Change` (its stripped text leads with a
marker). -/
def emitsChange (raw : String) : Bool :=
  pyStartsWith (pyStrip raw) '+' || pyStartsWith (pyStrip raw) '-'

/-- A change line that advances the new-file cursor (everything except a
deletion-classified line). -/
def advancesNew (raw : String) : Bool :=
  !(pyStartsWith (pyStrip raw) '-')

/-- A change line that advances the old-file cursor (everything except an
addition-classified line). -/
def advancesOld (raw : String) : Bool :=
  !(pyStartsWith (pyStrip raw) '+')

/-- A change with its identifier list dropped, for stating that identifier
extraction cannot influence the rest of the result. -/
def Change.forgetIdentifiers (c : Change) : Change :=
  { c with identifiers := [] }

/-- A hunk with all identifier lists dropped. -/
def Hunk.forgetIdentifiers (h : Hunk) : Hunk :=
  { h with changes := h.changes.map Change.forgetIdentifiers }

/-- The observable side effects of the source besides its return value: log
records (modelled as structured events carrying the interpolated values; the
f-string formatting itself is presentation) written to the process-wide
`logger`, and `time.time()` readings (modelled as an integer stream, standing
for the ambient clock shared across calls). -/
inductive LogEvent where
  | infoParsingLine (line : String)
  | infoFoundIdentifiers (count : Nat) (duration : Int)
  | warnLineError (msg : String)
  | infoParsingPatch (language : String)
  | infoProcessingFiles (old_file new_file : Option String)
  | infoExtractingChanges (old_line new_line : Int)
  | errorMissingLineRange
  | warnNoChanges
  | errorProcessingBlock
deriving DecidableEq, Repr

/-- The effectful embedding of `parse_line`: consumes two clock readings
(`start_time` and the reading taken for `duration`), returns its identifiers
together with the log records it writes and the rest of the clock stream. -/
def parse_line_logged (captures : CaptureOracle) (line : String)
    (clock : List Int) : List Identifier × List LogEvent × List Int :=
  let t0 := clock.headD 0
  let clock1 := clock.tail
  match captures line with
  | .error msg => ([], [LogEvent.infoParsingLine line, LogEvent.warnLineError msg], clock1)
  | .ok caps =>
    let ids := pySortByKey Identifier.character
      ((caps.filter (fun p => p.1 != "")).map (fun p => Identifier.mk p.1 p.2))
    let t1 := clock1.headD 0
    (ids, [LogEvent.infoParsingLine line,
           LogEvent.infoFoundIdentifiers ids.length (t1 - t0)], clock1.tail)

/-- The effectful embedding of the per-hunk change loop. -/
def processChangeLines_logged (captures : CaptureOracle) :
    List String → Int → Int → List Int → List Change × List LogEvent × List Int
  | [], _, _, clock => ([], [], clock)
  | raw :: rest, old_line, new_line, clock =>
    let text := pyStrip raw
    if pyStartsWith text '+' then
      let r1 := parse_line_logged captures (pyDrop1 text) clock
      let r2 := processChangeLines_logged captures rest old_line (new_line + 1) r1.2.2
      ({ line := new_line - 1, text := pyDrop1 text, type := ChangeType.Addition,
         identifiers := r1.1 } :: r2.1, r1.2.1 ++ r2.2.1, r2.2.2)
    else if pyStartsWith text '-' then
      let r1 := parse_line_logged captures (pyDrop1 text) clock
      let r2 := processChangeLines_logged captures rest (old_line + 1) new_line r1.2.2
      ({ line := old_line - 1, text := pyDrop1 text, type := ChangeType.Deletion,
         identifiers := r1.1 } :: r2.1, r1.2.1 ++ r2.2.1, r2.2.2)
    else
      processChangeLines_logged captures rest (old_line + 1) (new_line + 1) clock

/-- The effectful embedding of the per-block hunk loop.  It takes the same
branch as `hunkStep` on each hunk (skipping logs the missing-range or
no-changes message, aborting logs the caught block exception, emitting logs
the extraction message and runs the effectful change loop). -/
def processHunks_logged (captures : CaptureOracle)
    (old_file new_file : Option String) :
    List RawHunk → List Int → List Hunk × List LogEvent × List Int
  | [], clock => ([], [], clock)
  | r :: rest, clock =>
    match hunkStep captures old_file new_file r with
    | HunkStep.abort => ([], [LogEvent.errorProcessingBlock], clock)
    | HunkStep.skip =>
      let rr := processHunks_logged captures old_file new_file rest clock
      (rr.1, LogEvent.errorMissingLineRange :: rr.2.1, rr.2.2)
    | HunkStep.emit _ =>
      match r.startsOf, r.changes with
      | some (ol, nl), some lines =>
        let rc := processChangeLines_logged captures lines ol nl clock
        let rr := processHunks_logged captures old_file new_file rest rc.2.2
        ({ old_file := old_file, new_file := new_file, changes := rc.1 } :: rr.1,
         LogEvent.infoExtractingChanges ol nl :: (rc.2.1 ++ rr.2.1), rr.2.2)
      | _, _ => ([], [], clock)

/-- The effectful embedding of the block loop. -/
def processBlocks_logged (captures : CaptureOracle) :
    List RawBlock → List Int → List Hunk × List LogEvent × List Int
  | [], clock => ([], [], clock)
  | b :: rest, clock =>
    let of := blockFileName b.old_file
    let nf := blockFileName b.new_file
    let rb := processHunks_logged captures of nf (pySortByKey RawHunk.start_byte b.hunks) clock
    let rr := processBlocks_logged captures rest rb.2.2
    (rb.1 ++ rr.1, LogEvent.infoProcessingFiles of nf :: (rb.2.1 ++ rr.2.1), rr.2.2)

/-- The effectful embedding of `parse_diff_patch`: the same computation as
`parse_diff_patch` together with the log records it writes and the clock
readings it consumes. -/
def parse_diff_patch_logged (captures : CaptureOracle) (blocks : List RawBlock)
    (patch_language : String) (clock : List Int) :
    Except PyError (List Hunk) × List LogEvent × List Int :=
  match getLanguageParser patch_language with
  | .error e => (.error e, [LogEvent.infoParsingPatch patch_language], clock)
  | .ok _ =>
    match getLanguageParser "diff" with
    | .error e => (.error e, [LogEvent.infoParsingPatch patch_language], clock)
    | .ok _ =>
      let rb := processBlocks_logged captures blocks clock
      (.ok rb.1, LogEvent.infoParsingPatch patch_language :: rb.2.1, rb.2.2)

/-! Concrete instances used to exercise the embedding.  The oracles below
instantiate the external-grammar boundary: `emptyOracle` is a grammar that
finds no identifiers, `failingOracle` one whose parse or query raises, and
`scenarioOracle` reproduces the identifier captures that tree-sitter-python
yields on the lines of the specification's concrete scenario (the values the
specification itself states for those lines). -/

def emptyOracle : CaptureOracle := fun _ => Except.ok []

def failingOracle : CaptureOracle := fun _ => Except.error "query raised"

def scenarioOracle : CaptureOracle := fun line =>
  if line = "y = 2" then Except.ok [("y", 0)]
  else if line = "y = 3" then Except.ok [("y", 0)]
  else if line = "z = y + 1" then Except.ok [("z", 0), ("y", 4)]
  else Except.ok []

/-- A block whose hunk body contains a context line (leading space) whose
content begins with a plus sign: line 2 of the old and new file is literally
`+q = 1` in both, so the body reads context, context, deletion. -/
def blockCtxPlus : RawBlock :=
  { old_file := some "a.py", new_file := some "a.py",
    hunks := [{ location := some ("-1,3", "+1,2"),
                changes := some [" x = 1", " +q = 1", "-w = 2"],
                start_byte := 0 }] }

/-- A block whose hunk has two additions separated by a context line. -/
def blockAddCtxAdd : RawBlock :=
  { old_file := some "b.py", new_file := some "b.py",
    hunks := [{ location := some ("-1,1", "+1,2"),
                changes := some ["+a = 1", " c = 2", "+b = 3"],
                start_byte := 0 }] }

/-- First block of a two-block patch (its hunk header sits at byte 10). -/
def blockFirst : RawBlock :=
  { old_file := some "a.py", new_file := some "a.py",
    hunks := [{ location := some ("-1,1", "+1,1"),
                changes := some ["+a = 1"], start_byte := 10 }] }

/-- Second block of the same patch (its hunk header sits at byte 50). -/
def blockSecond : RawBlock :=
  { old_file := some "b.py", new_file := some "b.py",
    hunks := [{ location := some ("-2,1", "+2,1"),
                changes := some ["+b = 2"], start_byte := 50 }] }

/-- A block whose first hunk has no parsable location header (the location
query captured nothing) and whose second hunk is fine. -/
def blockMissingHeader : RawBlock :=
  { old_file := some "f.py", new_file := some "f.py",
    hunks := [{ location := none, changes := some ["+a = 1"], start_byte := 0 },
              { location := some ("-3,1", "+4,2"),
                changes := some ["+a = 1"], start_byte := 10 }] }

/-- A block whose first hunk has a present but numerically unparsable old
range (`int("x")` raises), followed by a fine hunk. -/
def blockBadRange : RawBlock :=
  { old_file := some "g.py", new_file := some "g.py",
    hunks := [{ location := some ("-x,1", "+1,1"),
                changes := some ["+a = 1"], start_byte := 0 },
              { location := some ("-5,1", "+5,1"),
                changes := some ["+ok = 1"], start_byte := 10 }] }

/-- The specification's concrete scenario: one block on `a.py` with one hunk
`@@ -1,2 +1,3 @@`, body: context `x = 1`, deletion `-y = 2`, additions
`+y = 3` and `+z = y + 1`. -/
def blockScenario : RawBlock :=
  { old_file := some "a.py", new_file := some "a.py",
    hunks := [{ location := some ("-1,2", "+1,3"),
                changes := some [" x = 1", "-y = 2", "+y = 3", "+z = y + 1"],
                start_byte := 0 }] }

/-- The `Hunk` the specification's concrete scenario claims
(`Deletion at line 0`). -/
def scenarioClaimedHunk : Hunk :=
  { old_file := some "a.py", new_file := some "a.py",
    changes :=
      [{ line := 0, text := "y = 2", type := ChangeType.Deletion,
         identifiers := [{ name := "y", character := 0 }] },
       { line := 1, text := "y = 3", type := ChangeType.Addition,
         identifiers := [{ name := "y", character := 0 }] },
       { line := 2, text := "z = y + 1", type := ChangeType.Addition,
         identifiers := [{ name := "z", character := 0 },
                         { name := "y", character := 4 }] }] }

/-- The `Hunk` the code actually produces on the scenario: identical except
that the deletion of old line 2 carries the zero-based line 1. -/
def scenarioActualHunk : Hunk :=
  { old_file := some "a.py", new_file := some "a.py",
    changes :=
      [{ line := 1, text := "y = 2", type := ChangeType.Deletion,
         identifiers := [{ name := "y", character := 0 }] },
       { line := 1, text := "y = 3", type := ChangeType.Addition,
         identifiers := [{ name := "y", character := 0 }] },
       { line := 2, text := "z = y + 1", type := ChangeType.Addition,
         identifiers := [{ name := "z", character := 0 },
                         { name := "y", character := 4 }] }] }

/-- A block whose addition line has whitespace between the marker and the
content. -/
def blockPaddedAdd : RawBlock :=
  { old_file := some "h.py", new_file := some "h.py",
    hunks := [{ location := some ("-1,1", "+1,1"),
                changes := some ["+  x = 1"], start_byte := 0 }] }

/-- Hunk node at byte 1 of a single-block patch used to exercise the
in-block sort. -/
def hunkLow : RawHunk :=
  { location := some ("-1,1", "+1,1"), changes := some ["+a = 1"], start_byte := 1 }

/-- Hunk node at byte 5 of the same patch. -/
def hunkHigh : RawHunk :=
  { location := some ("-9,1", "+9,1"), changes := some ["-b = 2"], start_byte := 5 }

/-- The block with its hunks in source order. -/
def blockSrcOrder : RawBlock :=
  { old_file := some "w.py", new_file := some "w.py", hunks := [hunkLow, hunkHigh] }

/-- The same block as the structural query might return it: hunks reversed. -/
def blockQueryOrder : RawBlock :=
  { old_file := some "w.py", new_file := some "w.py", hunks := [hunkHigh, hunkLow] }

/-! Helper lemmas about the stable sort. -/

theorem pyInsertByKey_perm (key : α → Nat) (a : α) (l : List α) :
    (pyInsertByKey key a l).Perm (a :: l) := by
  induction l with
  | nil => simp [pyInsertByKey]
  | cons b l ih =>
    simp only [pyInsertByKey]
    split
    · exact List.Perm.refl _
    · exact (ih.cons b).trans (List.Perm.swap a b l)

theorem pySortByKey_perm (key : α → Nat) (l : List α) :
    (pySortByKey key l).Perm l := by
  induction l with
  | nil => simp [pySortByKey]
  | cons a l ih => exact (pyInsertByKey_perm key a _).trans (ih.cons a)

theorem pyInsertByKey_pairwise (key : α → Nat) (a : α) (l : List α)
    (h : l.Pairwise (fun x y => key x ≤ key y)) :
    (pyInsertByKey key a l).Pairwise (fun x y => key x ≤ key y) := by
  induction l with
  | nil => simp [pyInsertByKey]
  | cons b l ih =>
    rw [List.pairwise_cons] at h
    obtain ⟨hb, hl⟩ := h
    simp only [pyInsertByKey]
    split
    · next hle =>
      rw [List.pairwise_cons]
      refine ⟨?_, by rw [List.pairwise_cons]; exact ⟨hb, hl⟩⟩
      intro x hx
      rcases List.mem_cons.mp hx with rfl | hx
      · exact hle
      · exact Nat.le_trans hle (hb x hx)
    · next hgt =>
      rw [List.pairwise_cons]
      refine ⟨?_, ih hl⟩
      intro x hx
      rcases List.mem_cons.mp ((pyInsertByKey_perm key a l).mem_iff.mp hx) with rfl | hx
      · omega
      · exact hb x hx

theorem pySortByKey_pairwise (key : α → Nat) (l : List α) :
    (pySortByKey key l).Pairwise (fun x y => key x ≤ key y) := by
  induction l with
  | nil => simp [pySortByKey]
  | cons a l ih => exact pyInsertByKey_pairwise key a _ ih

theorem pySortByKey_of_perm_of_strictSorted (key : α → Nat) {l l' : List α}
    (hp : l'.Perm l) (hs : l.Pairwise (fun x y => key x < key y)) :
    pySortByKey key l' = l := by
  haveI : IsAntisymm α (fun x y => key x < key y) :=
    ⟨fun a b h1 h2 => absurd (Nat.lt_trans h1 h2) (Nat.lt_irrefl _)⟩
  have hperm : (pySortByKey key l').Perm l := (pySortByKey_perm key l').trans hp
  have hne : l.Pairwise (fun x y => key x ≠ key y) :=
    hs.imp (fun h => Nat.ne_of_lt h)
  have hne' : (pySortByKey key l').Pairwise (fun x y => key x ≠ key y) :=
    (hperm.pairwise_iff (fun h => Ne.symm h)).mpr hne
  have hlt : (pySortByKey key l').Pairwise (fun x y => key x < key y) :=
    ((pySortByKey_pairwise key l').and hne').imp
      (fun h => Nat.lt_of_le_of_ne h.1 h.2)
  exact List.eq_of_perm_of_sorted hperm hlt hs

/-! Helper lemmas about the change loop. -/

theorem pyStartsWith_minus_of_plus {s : String}
    (h : pyStartsWith s '+' = true) : pyStartsWith s '-' = false := by
  rcases hd : s.data with _ | ⟨a, l⟩
  · exact absurd h (by simp [pyStartsWith, hd])
  · have ha : a = '+' := by
      have h' := h
      simp [pyStartsWith, hd] at h'
      exact h'
    simp [pyStartsWith, hd, ha]

theorem processChangeLines_cons_add (c : CaptureOracle) (raw : String)
    (rest : List String) (o n : Int)
    (h : pyStartsWith (pyStrip raw) '+' = true) :
    processChangeLines c (raw :: rest) o n =
      { line := n - 1, text := pyDrop1 (pyStrip raw), type := ChangeType.Addition,
        identifiers := parse_line c (pyDrop1 (pyStrip raw)) } ::
        processChangeLines c rest o (n + 1) := by
  simp [processChangeLines, h]

theorem processChangeLines_cons_del (c : CaptureOracle) (raw : String)
    (rest : List String) (o n : Int)
    (h1 : pyStartsWith (pyStrip raw) '+' = false)
    (h2 : pyStartsWith (pyStrip raw) '-' = true) :
    processChangeLines c (raw :: rest) o n =
      { line := o - 1, text := pyDrop1 (pyStrip raw), type := ChangeType.Deletion,
        identifiers := parse_line c (pyDrop1 (pyStrip raw)) } ::
        processChangeLines c rest (o + 1) n := by
  simp [processChangeLines, h1, h2]

theorem processChangeLines_cons_ctx (c : CaptureOracle) (raw : String)
    (rest : List String) (o n : Int)
    (h1 : pyStartsWith (pyStrip raw) '+' = false)
    (h2 : pyStartsWith (pyStrip raw) '-' = false) :
    processChangeLines c (raw :: rest) o n =
      processChangeLines c rest (o + 1) (n + 1) := by
  simp [processChangeLines, h1, h2]

theorem processChangeLines_addition_at (captures : CaptureOracle)
    (before : List String) (raw : String) (after : List String)
    (hadd : pyStartsWith (pyStrip raw) '+' = true) :
    ∀ o n : Int,
      (processChangeLines captures (before ++ raw :: after) o n)[before.countP emitsChange]?
        = some { line := n - 1 + before.countP advancesNew,
                 text := pyDrop1 (pyStrip raw), type := ChangeType.Addition,
                 identifiers := parse_line captures (pyDrop1 (pyStrip raw)) } := by
  induction before with
  | nil =>
    intro o n
    rw [List.nil_append, List.countP_nil, List.countP_nil,
      processChangeLines_cons_add captures raw after o n hadd]
    simp
  | cons b bs ih =>
    intro o n
    by_cases hb : pyStartsWith (pyStrip b) '+' = true
    · have hm : pyStartsWith (pyStrip b) '-' = false := pyStartsWith_minus_of_plus hb
      have he : emitsChange b = true := by simp [emitsChange, hb]
      have ha : advancesNew b = true := by simp [advancesNew, hm]
      rw [List.cons_append, processChangeLines_cons_add captures b _ o n hb,
        List.countP_cons_of_pos _ _ he, List.countP_cons_of_pos _ _ ha,
        List.getElem?_cons_succ, ih o (n + 1)]
      apply congrArg some
      rw [Change.mk.injEq]
      refine ⟨by push_cast; omega, rfl, rfl, rfl⟩
    · by_cases hm : pyStartsWith (pyStrip b) '-' = true
      · have hb' : pyStartsWith (pyStrip b) '+' = false := by
          simpa using hb
        have he : emitsChange b = true := by simp [emitsChange, hm]
        have ha : ¬ advancesNew b = true := by simp [advancesNew, hm]
        rw [List.cons_append, processChangeLines_cons_del captures b _ o n hb' hm,
          List.countP_cons_of_pos _ _ he, List.countP_cons_of_neg _ _ ha,
          List.getElem?_cons_succ]
        exact ih (o + 1) n
      · have hb' : pyStartsWith (pyStrip b) '+' = false := by
          simpa using hb
        have hm' : pyStartsWith (pyStrip b) '-' = false := by
          simpa using hm
        have he : ¬ emitsChange b = true := by simp [emitsChange, hb', hm']
        have ha : advancesNew b = true := by simp [advancesNew, hm']
        rw [List.cons_append, processChangeLines_cons_ctx captures b _ o n hb' hm',
          List.countP_cons_of_neg _ _ he, List.countP_cons_of_pos _ _ ha,
          ih (o + 1) (n + 1)]
        apply congrArg some
        rw [Change.mk.injEq]
        refine ⟨by push_cast; omega, rfl, rfl, rfl⟩

theorem processChangeLines_deletion_at (captures : CaptureOracle)
    (before : List String) (raw : String) (after : List String)
    (hplus : pyStartsWith (pyStrip raw) '+' = false)
    (hdel : pyStartsWith (pyStrip raw) '-' = true) :
    ∀ o n : Int,
      (processChangeLines captures (before ++ raw :: after) o n)[before.countP emitsChange]?
        = some { line := o - 1 + before.countP advancesOld,
                 text := pyDrop1 (pyStrip raw), type := ChangeType.Deletion,
                 identifiers := parse_line captures (pyDrop1 (pyStrip raw)) } := by
  induction before with
  | nil =>
    intro o n
    rw [List.nil_append, List.countP_nil, List.countP_nil,
      processChangeLines_cons_del captures raw after o n hplus hdel]
    simp
  | cons b bs ih =>
    intro o n
    by_cases hb : pyStartsWith (pyStrip b) '+' = true
    · have he : emitsChange b = true := by simp [emitsChange, hb]
      have ha : ¬ advancesOld b = true := by simp [advancesOld, hb]
      rw [List.cons_append, processChangeLines_cons_add captures b _ o n hb,
        List.countP_cons_of_pos _ _ he, List.countP_cons_of_neg _ _ ha,
        List.getElem?_cons_succ]
      exact ih o (n + 1)
    · by_cases hm : pyStartsWith (pyStrip b) '-' = true
      · have hb' : pyStartsWith (pyStrip b) '+' = false := by
          simpa using hb
        have he : emitsChange b = true := by simp [emitsChange, hm]
        have ha : advancesOld b = true := by simp [advancesOld, hb']
        rw [List.cons_append, processChangeLines_cons_del captures b _ o n hb' hm,
          List.countP_cons_of_pos _ _ he, List.countP_cons_of_pos _ _ ha,
          List.getElem?_cons_succ, ih (o + 1) n]
        apply congrArg some
        rw [Change.mk.injEq]
        refine ⟨by push_cast; omega, rfl, rfl, rfl⟩
      · have hb' : pyStartsWith (pyStrip b) '+' = false := by
          simpa using hb
        have hm' : pyStartsWith (pyStrip b) '-' = false := by
          simpa using hm
        have he : ¬ emitsChange b = true := by simp [emitsChange, hb', hm']
        have ha : advancesOld b = true := by simp [advancesOld, hb']
        rw [List.cons_append, processChangeLines_cons_ctx captures b _ o n hb' hm',
          List.countP_cons_of_neg _ _ he, List.countP_cons_of_pos _ _ ha,
          ih (o + 1) (n + 1)]
        apply congrArg some
        rw [Change.mk.injEq]
        refine ⟨by push_cast; omega, rfl, rfl, rfl⟩

theorem processChangeLines_addition_lb (captures : CaptureOracle) :
    ∀ (lines : List String) (o n : Int) (ch : Change),
      ch ∈ processChangeLines captures lines o n →
      ch.type = ChangeType.Addition → n - 1 ≤ ch.line := by
  intro lines
  induction lines with
  | nil => intro o n ch h; simp [processChangeLines] at h
  | cons raw rest ih =>
    intro o n ch h htype
    by_cases h1 : pyStartsWith (pyStrip raw) '+' = true
    · rw [processChangeLines_cons_add captures raw rest o n h1] at h
      rcases List.mem_cons.mp h with rfl | h
      · simp
      · have := ih o (n + 1) ch h htype
        omega
    · have h1' : pyStartsWith (pyStrip raw) '+' = false := by simpa using h1
      by_cases h2 : pyStartsWith (pyStrip raw) '-' = true
      · rw [processChangeLines_cons_del captures raw rest o n h1' h2] at h
        rcases List.mem_cons.mp h with rfl | h
        · exact absurd htype (by simp)
        · exact ih (o + 1) n ch h htype
      · have h2' : pyStartsWith (pyStrip raw) '-' = false := by simpa using h2
        rw [processChangeLines_cons_ctx captures raw rest o n h1' h2'] at h
        have := ih (o + 1) (n + 1) ch h htype
        omega

theorem processChangeLines_deletion_lb (captures : CaptureOracle) :
    ∀ (lines : List String) (o n : Int) (ch : Change),
      ch ∈ processChangeLines captures lines o n →
      ch.type = ChangeType.Deletion → o - 1 ≤ ch.line := by
  intro lines
  induction lines with
  | nil => intro o n ch h; simp [processChangeLines] at h
  | cons raw rest ih =>
    intro o n ch h htype
    by_cases h1 : pyStartsWith (pyStrip raw) '+' = true
    · rw [processChangeLines_cons_add captures raw rest o n h1] at h
      rcases List.mem_cons.mp h with rfl | h
      · exact absurd htype (by simp)
      · exact ih o (n + 1) ch h htype
    · have h1' : pyStartsWith (pyStrip raw) '+' = false := by simpa using h1
      by_cases h2 : pyStartsWith (pyStrip raw) '-' = true
      · rw [processChangeLines_cons_del captures raw rest o n h1' h2] at h
        rcases List.mem_cons.mp h with rfl | h
        · simp
        · have := ih (o + 1) n ch h htype
          omega
      · have h2' : pyStartsWith (pyStrip raw) '-' = false := by simpa using h2
        rw [processChangeLines_cons_ctx captures raw rest o n h1' h2'] at h
        have := ih (o + 1) (n + 1) ch h htype
        omega

theorem processChangeLines_addition_pairwise (captures : CaptureOracle) :
    ∀ (lines : List String) (o n : Int),
      ((processChangeLines captures lines o n).filter
        (fun ch => decide (ch.type = ChangeType.Addition))).Pairwise
        (fun a b => a.line < b.line) := by
  intro lines
  induction lines with
  | nil => intro o n; simp [processChangeLines]
  | cons raw rest ih =>
    intro o n
    by_cases h1 : pyStartsWith (pyStrip raw) '+' = true
    · rw [processChangeLines_cons_add captures raw rest o n h1,
        List.filter_cons_of_pos (by simp)]
      rw [List.pairwise_cons]
      refine ⟨?_, ih o (n + 1)⟩
      intro ch hch
      have hm := List.mem_filter.mp hch
      have htype : ch.type = ChangeType.Addition := by simpa using hm.2
      have := processChangeLines_addition_lb captures rest o (n + 1) ch hm.1 htype
      simp only
      omega
    · have h1' : pyStartsWith (pyStrip raw) '+' = false := by simpa using h1
      by_cases h2 : pyStartsWith (pyStrip raw) '-' = true
      · rw [processChangeLines_cons_del captures raw rest o n h1' h2,
          List.filter_cons_of_neg (by simp)]
        exact ih (o + 1) n
      · have h2' : pyStartsWith (pyStrip raw) '-' = false := by simpa using h2
        rw [processChangeLines_cons_ctx captures raw rest o n h1' h2']
        exact ih (o + 1) (n + 1)

theorem processChangeLines_deletion_pairwise (captures : CaptureOracle) :
    ∀ (lines : List String) (o n : Int),
      ((processChangeLines captures lines o n).filter
        (fun ch => decide (ch.type = ChangeType.Deletion))).Pairwise
        (fun a b => a.line < b.line) := by
  intro lines
  induction lines with
  | nil => intro o n; simp [processChangeLines]
  | cons raw rest ih =>
    intro o n
    by_cases h1 : pyStartsWith (pyStrip raw) '+' = true
    · rw [processChangeLines_cons_add captures raw rest o n h1,
        List.filter_cons_of_neg (by simp)]
      exact ih o (n + 1)
    · have h1' : pyStartsWith (pyStrip raw) '+' = false := by simpa using h1
      by_cases h2 : pyStartsWith (pyStrip raw) '-' = true
      · rw [processChangeLines_cons_del captures raw rest o n h1' h2,
          List.filter_cons_of_pos (by simp)]
        rw [List.pairwise_cons]
        refine ⟨?_, ih (o + 1) n⟩
        intro ch hch
        have hm := List.mem_filter.mp hch
        have htype : ch.type = ChangeType.Deletion := by simpa using hm.2
        have := processChangeLines_deletion_lb captures rest (o + 1) n ch hm.1 htype
        simp only
        omega
      · have h2' : pyStartsWith (pyStrip raw) '-' = false := by simpa using h2
        rw [processChangeLines_cons_ctx captures raw rest o n h1' h2']
        exact ih (o + 1) (n + 1)

theorem processChangeLines_text_provenance (captures : CaptureOracle) :
    ∀ (lines : List String) (o n : Int) (ch : Change),
      ch ∈ processChangeLines captures lines o n →
      ∃ raw, raw ∈ lines ∧
        (pyStartsWith (pyStrip raw) '+' = true ∨ pyStartsWith (pyStrip raw) '-' = true) ∧
        ch.text = pyDrop1 (pyStrip raw) ∧
        ch.identifiers = parse_line captures (pyDrop1 (pyStrip raw)) := by
  intro lines
  induction lines with
  | nil => intro o n ch h; simp [processChangeLines] at h
  | cons raw rest ih =>
    intro o n ch h
    by_cases h1 : pyStartsWith (pyStrip raw) '+' = true
    · rw [processChangeLines_cons_add captures raw rest o n h1] at h
      rcases List.mem_cons.mp h with rfl | h
      · exact ⟨raw, List.mem_cons_self raw rest, Or.inl h1, rfl, rfl⟩
      · obtain ⟨r, hr, hcls, htext⟩ := ih o (n + 1) ch h
        exact ⟨r, List.mem_cons_of_mem raw hr, hcls, htext⟩
    · have h1' : pyStartsWith (pyStrip raw) '+' = false := by simpa using h1
      by_cases h2 : pyStartsWith (pyStrip raw) '-' = true
      · rw [processChangeLines_cons_del captures raw rest o n h1' h2] at h
        rcases List.mem_cons.mp h with rfl | h
        · exact ⟨raw, List.mem_cons_self raw rest, Or.inr h2, rfl, rfl⟩
        · obtain ⟨r, hr, hcls, htext⟩ := ih (o + 1) n ch h
          exact ⟨r, List.mem_cons_of_mem raw hr, hcls, htext⟩
      · have h2' : pyStartsWith (pyStrip raw) '-' = false := by simpa using h2
        rw [processChangeLines_cons_ctx captures raw rest o n h1' h2'] at h
        obtain ⟨r, hr, hcls, htext⟩ := ih (o + 1) (n + 1) ch h
        exact ⟨r, List.mem_cons_of_mem raw hr, hcls, htext⟩

theorem processChangeLines_forget (c1 c2 : CaptureOracle) :
    ∀ (lines : List String) (o n : Int),
      (processChangeLines c1 lines o n).map Change.forgetIdentifiers =
        (processChangeLines c2 lines o n).map Change.forgetIdentifiers := by
  intro lines
  induction lines with
  | nil => intro o n; simp [processChangeLines]
  | cons raw rest ih =>
    intro o n
    by_cases h1 : pyStartsWith (pyStrip raw) '+' = true
    · rw [processChangeLines_cons_add c1 raw rest o n h1,
        processChangeLines_cons_add c2 raw rest o n h1]
      simp only [List.map_cons, Change.forgetIdentifiers]
      rw [ih o (n + 1)]
    · have h1' : pyStartsWith (pyStrip raw) '+' = false := by simpa using h1
      by_cases h2 : pyStartsWith (pyStrip raw) '-' = true
      · rw [processChangeLines_cons_del c1 raw rest o n h1' h2,
          processChangeLines_cons_del c2 raw rest o n h1' h2]
        simp only [List.map_cons, Change.forgetIdentifiers]
        rw [ih (o + 1) n]
      · have h2' : pyStartsWith (pyStrip raw) '-' = false := by simpa using h2
        rw [processChangeLines_cons_ctx c1 raw rest o n h1' h2',
          processChangeLines_cons_ctx c2 raw rest o n h1' h2']
        exact ih (o + 1) (n + 1)

/-! Helper lemmas about the hunk and block loops. -/

theorem hunkStep_emit_iff (captures : CaptureOracle)
    (old_file new_file : Option String) (r : RawHunk) (h : Hunk) :
    hunkStep captures old_file new_file r = HunkStep.emit h ↔
      ∃ ol nl lines, r.startsOf = some (ol, nl) ∧ r.changes = some lines ∧
        h = { old_file := old_file, new_file := new_file,
              changes := processChangeLines captures lines ol nl } := by
  rcases hl : r.location with _ | ⟨ot, nt⟩
  · simp [hunkStep, RawHunk.startsOf, hl]
  · rcases ho : parseLineRangeCapture ot with e | oOpt
    · simp [hunkStep, RawHunk.startsOf, hl, ho]
    · rcases hn : parseLineRangeCapture nt with e | nOpt
      · simp [hunkStep, RawHunk.startsOf, hl, ho, hn]
      · rcases oOpt with _ | ol
        · simp [hunkStep, RawHunk.startsOf, hl, ho, hn]
        · rcases nOpt with _ | nl
          · simp [hunkStep, RawHunk.startsOf, hl, ho, hn]
          · rcases hc : r.changes with _ | lines
            · simp [hunkStep, RawHunk.startsOf, hl, ho, hn, hc]
            · simp only [hunkStep, RawHunk.startsOf, hl, ho, hn, hc]
              constructor
              · intro he
                exact ⟨ol, nl, lines, rfl, rfl, (HunkStep.emit.inj he).symm⟩
              · rintro ⟨ol', nl', lines', h1, h2, rfl⟩
                obtain ⟨rfl, rfl⟩ : ol = ol' ∧ nl = nl' := by
                  have := Option.some.inj h1
                  exact ⟨congrArg Prod.fst this, congrArg Prod.snd this⟩
                obtain rfl : lines = lines' := Option.some.inj h2
                rfl

theorem mem_processHunks (captures : CaptureOracle)
    (old_file new_file : Option String) :
    ∀ (rs : List RawHunk) (h : Hunk), h ∈ processHunks captures old_file new_file rs →
      ∃ r, r ∈ rs ∧ ∃ ol nl lines,
        r.startsOf = some (ol, nl) ∧ r.changes = some lines ∧
        h = { old_file := old_file, new_file := new_file,
              changes := processChangeLines captures lines ol nl } := by
  intro rs
  induction rs with
  | nil => intro h hmem; simp [processHunks] at hmem
  | cons r rest ih =>
    intro h hmem
    rcases hs : hunkStep captures old_file new_file r with _ | _ | h'
    · rw [processHunks, hs] at hmem
      obtain ⟨r', hr', hdata⟩ := ih h hmem
      exact ⟨r', List.mem_cons_of_mem r hr', hdata⟩
    · rw [processHunks, hs] at hmem
      simp at hmem
    · rw [processHunks, hs] at hmem
      rcases List.mem_cons.mp hmem with rfl | hmem
      · obtain ⟨ol, nl, lines, h1, h2, h3⟩ := (hunkStep_emit_iff captures _ _ r h).mp hs
        exact ⟨r, List.mem_cons_self r rest, ol, nl, lines, h1, h2, h3⟩
      · obtain ⟨r', hr', hdata⟩ := ih h hmem
        exact ⟨r', List.mem_cons_of_mem r hr', hdata⟩

theorem hunkStep_of_wellFormed (captures : CaptureOracle)
    (old_file new_file : Option String) (r : RawHunk)
    (hw : WellFormedRawHunk r) :
    hunkStep captures old_file new_file r =
      HunkStep.emit (hunkOfRaw captures old_file new_file r) := by
  obtain ⟨⟨⟨ol, nl⟩, hstarts⟩, lines, hlines⟩ := hw
  rw [hunkStep_emit_iff]
  refine ⟨ol, nl, lines, hstarts, hlines, ?_⟩
  simp [hunkOfRaw, hstarts, hlines]

theorem processHunks_of_wellFormed (captures : CaptureOracle)
    (old_file new_file : Option String) :
    ∀ rs : List RawHunk, (∀ r ∈ rs, WellFormedRawHunk r) →
      processHunks captures old_file new_file rs =
        rs.map (hunkOfRaw captures old_file new_file) := by
  intro rs
  induction rs with
  | nil => intro _; simp [processHunks]
  | cons r rest ih =>
    intro hw
    rw [processHunks, hunkStep_of_wellFormed captures old_file new_file r
      (hw r (List.mem_cons_self r rest))]
    rw [List.map_cons, ih (fun r' hr' => hw r' (List.mem_cons_of_mem r hr'))]

theorem mem_parse_diff_patch (captures : CaptureOracle) (blocks : List RawBlock)
    (lang : String) (hs : List Hunk) (h : Hunk)
    (hok : parse_diff_patch captures blocks lang = .ok hs) (hmem : h ∈ hs) :
    ∃ b, b ∈ blocks ∧ ∃ r, r ∈ b.hunks ∧ ∃ ol nl lines,
      r.startsOf = some (ol, nl) ∧ r.changes = some lines ∧
      h = { old_file := blockFileName b.old_file,
            new_file := blockFileName b.new_file,
            changes := processChangeLines captures lines ol nl } := by
  unfold parse_diff_patch at hok
  rcases hg : getLanguageParser lang with e | k
  · rw [hg] at hok; exact absurd hok (by simp)
  · rw [hg] at hok
    have hd : getLanguageParser "diff" = .ok ParserKind.diff := by decide
    rw [hd] at hok
    have hflat : hs = (blocks.map (processBlock captures)).flatten := by
      have := Except.ok.inj hok
      exact this.symm
    subst hflat
    obtain ⟨l, hl, hmem'⟩ := List.mem_flatten.mp hmem
    obtain ⟨b, hb, rfl⟩ := List.mem_map.mp hl
    obtain ⟨r, hr, hdata⟩ := mem_processHunks captures _ _ _ h hmem'
    exact ⟨b, hb, r, (pySortByKey_perm RawHunk.start_byte b.hunks).mem_iff.mp hr, hdata⟩

/-! Helper lemmas relating the effectful embedding to the pure one. -/

theorem parse_line_logged_fst (captures : CaptureOracle) (line : String)
    (clock : List Int) :
    (parse_line_logged captures line clock).1 = parse_line captures line := by
  unfold parse_line_logged parse_line
  rcases captures line with e | caps <;> simp

theorem processChangeLines_logged_fst (captures : CaptureOracle) :
    ∀ (lines : List String) (o n : Int) (clock : List Int),
      (processChangeLines_logged captures lines o n clock).1 =
        processChangeLines captures lines o n := by
  intro lines
  induction lines with
  | nil => intro o n clock; simp [processChangeLines_logged, processChangeLines]
  | cons raw rest ih =>
    intro o n clock
    by_cases h1 : pyStartsWith (pyStrip raw) '+' = true
    · rw [processChangeLines_cons_add captures raw rest o n h1]
      simp only [processChangeLines_logged, h1, if_true]
      simp only [parse_line_logged_fst, ih]
    · have h1' : pyStartsWith (pyStrip raw) '+' = false := by simpa using h1
      by_cases h2 : pyStartsWith (pyStrip raw) '-' = true
      · rw [processChangeLines_cons_del captures raw rest o n h1' h2]
        simp only [processChangeLines_logged, h1', h2, if_true, Bool.false_eq_true,
          if_false]
        simp only [parse_line_logged_fst, ih]
      · have h2' : pyStartsWith (pyStrip raw) '-' = false := by simpa using h2
        rw [processChangeLines_cons_ctx captures raw rest o n h1' h2']
        simp only [processChangeLines_logged, h1', h2', Bool.false_eq_true, if_false]
        exact ih (o + 1) (n + 1) clock

theorem processHunks_logged_fst (captures : CaptureOracle)
    (old_file new_file : Option String) :
    ∀ (rs : List RawHunk) (clock : List Int),
      (processHunks_logged captures old_file new_file rs clock).1 =
        processHunks captures old_file new_file rs := by
  intro rs
  induction rs with
  | nil => intro clock; simp [processHunks_logged, processHunks]
  | cons r rest ih =>
    intro clock
    rw [processHunks]
    rcases hs : hunkStep captures old_file new_file r with _ | _ | h'
    · simp only [processHunks_logged, hs]
      exact ih clock
    · simp only [processHunks_logged, hs]
    · obtain ⟨ol, nl, lines, h1, h2, h3⟩ :=
        (hunkStep_emit_iff captures old_file new_file r h').mp hs
      simp only [processHunks_logged, hs, h1, h2]
      rw [processChangeLines_logged_fst, ih, h3]

theorem processBlocks_logged_fst (captures : CaptureOracle) :
    ∀ (blocks : List RawBlock) (clock : List Int),
      (processBlocks_logged captures blocks clock).1 =
        (blocks.map (processBlock captures)).flatten := by
  intro blocks
  induction blocks with
  | nil => intro clock; simp [processBlocks_logged]
  | cons b rest ih =>
    intro clock
    simp only [processBlocks_logged, List.map_cons, List.flatten_cons]
    rw [processHunks_logged_fst, ih]
    rfl

theorem parse_diff_patch_logged_fst (captures : CaptureOracle)
    (blocks : List RawBlock) (lang : String) (clock : List Int) :
    (parse_diff_patch_logged captures blocks lang clock).1 =
      parse_diff_patch captures blocks lang := by
  unfold parse_diff_patch_logged parse_diff_patch
  rcases getLanguageParser lang with e | k
  · rfl
  · rcases getLanguageParser "diff" with e | k'
    · rfl
    · simp only
      rw [processBlocks_logged_fst]

theorem hunkStep_shape (old_file new_file : Option String) (r : RawHunk) :
    (∀ c : CaptureOracle, hunkStep c old_file new_file r = HunkStep.skip) ∨
    (∀ c : CaptureOracle, hunkStep c old_file new_file r = HunkStep.abort) ∨
    (∃ ol nl lines, r.startsOf = some (ol, nl) ∧ r.changes = some lines ∧
      ∀ c : CaptureOracle, hunkStep c old_file new_file r =
        HunkStep.emit { old_file := old_file, new_file := new_file,
                        changes := processChangeLines c lines ol nl }) := by
  rcases hl : r.location with _ | ⟨ot, nt⟩
  · exact Or.inl (fun c => by simp [hunkStep, hl])
  · rcases ho : parseLineRangeCapture ot with e | oOpt
    · exact Or.inr (Or.inl (fun c => by simp [hunkStep, hl, ho]))
    · rcases hn : parseLineRangeCapture nt with e | nOpt
      · exact Or.inr (Or.inl (fun c => by simp [hunkStep, hl, ho, hn]))
      · rcases oOpt with _ | ol
        · exact Or.inl (fun c => by simp [hunkStep, hl, ho, hn])
        · rcases nOpt with _ | nl
          · exact Or.inl (fun c => by simp [hunkStep, hl, ho, hn])
          · rcases hc : r.changes with _ | lines
            · exact Or.inl (fun c => by simp [hunkStep, hl, ho, hn, hc])
            · refine Or.inr (Or.inr ⟨ol, nl, lines, ?_, rfl, fun c => ?_⟩)
              · simp [RawHunk.startsOf, hl, ho, hn]
              · simp [hunkStep, hl, ho, hn, hc]

theorem processHunks_forget (c1 c2 : CaptureOracle)
    (old_file new_file : Option String) :
    ∀ rs : List RawHunk,
      (processHunks c1 old_file new_file rs).map Hunk.forgetIdentifiers =
        (processHunks c2 old_file new_file rs).map Hunk.forgetIdentifiers := by
  intro rs
  induction rs with
  | nil => simp [processHunks]
  | cons r rest ih =>
    rcases hunkStep_shape old_file new_file r with hskip | habort | ⟨ol, nl, lines, _, _, hemit⟩
    · rw [processHunks, processHunks, hskip c1, hskip c2]
      exact ih
    · rw [processHunks, processHunks, habort c1, habort c2]
    · rw [processHunks, processHunks, hemit c1, hemit c2]
      simp only [List.map_cons, Hunk.forgetIdentifiers]
      rw [processChangeLines_forget c1 c2 lines ol nl, ih]

theorem parse_diff_patch_forget (c1 c2 : CaptureOracle) (blocks : List RawBlock)
    (lang : String) :
    (parse_diff_patch c1 blocks lang).map (List.map Hunk.forgetIdentifiers) =
      (parse_diff_patch c2 blocks lang).map (List.map Hunk.forgetIdentifiers) := by
  unfold parse_diff_patch
  rcases getLanguageParser lang with e | k
  · rfl
  · have hd : getLanguageParser "diff" = .ok ParserKind.diff := by decide
    rw [hd]
    simp only [Except.map]
    apply congrArg
    induction blocks with
    | nil => rfl
    | cons b rest ih =>
      simp only [List.map_cons, List.flatten_cons, List.map_append]
      rw [ih]
      simp only [processBlock]
      rw [processHunks_forget c1 c2]

/-! The claims. -/

/-- C1: evaluation of the code at the failing input.  The claim (and the
Line Re-indexer contract it quotes) classifies the hunk body
`[" x = 1", " +q = 1", "-w = 2"]` as context, context, deletion — emitting
exactly one Deletion at line 2 — because a change line's kind is read off its
leading character and ` +q = 1` leads with a space.  The code strips each
line before classifying, so it processes ` +q = 1` as an Addition (emitting a
Change for a line present in both files) and no longer advances the old-file
cursor for it, which also shifts the following deletion to line 1.  The
second conjunct evaluates the claim's own procedure on the same body. -/
theorem context_plus_line_misclassified :
    parse_diff_patch emptyOracle [blockCtxPlus] "Python" =
      .ok [{ old_file := some "a.py", new_file := some "a.py",
             changes :=
               [{ line := 1, text := "q = 1", type := ChangeType.Addition,
                  identifiers := [] },
                { line := 1, text := "w = 2", type := ChangeType.Deletion,
                  identifiers := [] }] }] ∧
    reindexAsSpecified emptyOracle [" x = 1", " +q = 1", "-w = 2"] 1 1 =
      [{ line := 2, text := "w = 2", type := ChangeType.Deletion,
         identifiers := [] }] :=
  ⟨by decide, by decide⟩

/-- C2 counterexample: a hunk `@@ -1,1 +1,2 @@` whose body is an addition, a
context line, and another addition yields Addition line values `[0, 2]`, not
the claimed `new_start-1, new_start, … = [0, 1]`: context lines also advance
the new-file cursor, so the Addition subsequence is not consecutive. -/
theorem addition_lines_not_consecutive :
    parse_diff_patch emptyOracle [blockAddCtxAdd] "Python" =
      .ok [{ old_file := some "b.py", new_file := some "b.py",
             changes :=
               [{ line := 0, text := "a = 1", type := ChangeType.Addition,
                  identifiers := [] },
                { line := 2, text := "b = 3", type := ChangeType.Addition,
                  identifiers := [] }] }] ∧
    ([(0 : Int), 2] ≠ [1 - 1, 1]) :=
  ⟨by decide, by decide⟩

/-- C2 (amended): in the change sequence of a hunk processed from cursors
`old_start`/`new_start`, the emitted Change for an addition-classified body
line equals `new_start - 1` plus the number of earlier body lines that are
not deletions (each such line advanced the new cursor), positioned after one
output entry per earlier marker line; deletions are symmetric against
`old_start - 1` and the lines that are not additions; consequently the
Addition-only (and Deletion-only) line subsequences are strictly increasing,
though not consecutive.  The last conjunct ties this to `parse_diff_patch`:
every returned hunk's changes are exactly such a sequence for the starts
parsed from its header. -/
theorem hunk_change_line_numbers (captures : CaptureOracle) (o n : Int) :
    (∀ (before : List String) (raw : String) (after : List String),
      pyStartsWith (pyStrip raw) '+' = true →
      (processChangeLines captures (before ++ raw :: after) o n)[before.countP emitsChange]?
        = some { line := n - 1 + before.countP advancesNew,
                 text := pyDrop1 (pyStrip raw), type := ChangeType.Addition,
                 identifiers := parse_line captures (pyDrop1 (pyStrip raw)) }) ∧
    (∀ (before : List String) (raw : String) (after : List String),
      pyStartsWith (pyStrip raw) '+' = false →
      pyStartsWith (pyStrip raw) '-' = true →
      (processChangeLines captures (before ++ raw :: after) o n)[before.countP emitsChange]?
        = some { line := o - 1 + before.countP advancesOld,
                 text := pyDrop1 (pyStrip raw), type := ChangeType.Deletion,
                 identifiers := parse_line captures (pyDrop1 (pyStrip raw)) }) ∧
    (∀ lines : List String,
      ((processChangeLines captures lines o n).filter
        (fun ch => decide (ch.type = ChangeType.Addition))).Pairwise
        (fun a b => a.line < b.line) ∧
      ((processChangeLines captures lines o n).filter
        (fun ch => decide (ch.type = ChangeType.Deletion))).Pairwise
        (fun a b => a.line < b.line)) ∧
    (∀ (blocks : List RawBlock) (lang : String) (hs : List Hunk) (h : Hunk),
      parse_diff_patch captures blocks lang = .ok hs → h ∈ hs →
      ∃ ol nl lines, (∃ b, b ∈ blocks ∧ ∃ r, r ∈ b.hunks ∧
          r.startsOf = some (ol, nl) ∧ r.changes = some lines) ∧
        h.changes = processChangeLines captures lines ol nl) := by
  refine ⟨?_, ?_, ?_, ?_⟩
  · intro before raw after h
    exact processChangeLines_addition_at captures before raw after h o n
  · intro before raw after h1 h2
    exact processChangeLines_deletion_at captures before raw after h1 h2 o n
  · intro lines
    exact ⟨processChangeLines_addition_pairwise captures lines o n,
           processChangeLines_deletion_pairwise captures lines o n⟩
  · intro blocks lang hs h hok hmem
    obtain ⟨b, hb, r, hr, ol, nl, lines, h1, h2, h3⟩ :=
      mem_parse_diff_patch captures blocks lang hs h hok hmem
    exact ⟨ol, nl, lines, ⟨b, hb, r, hr, h1, h2⟩, by rw [h3]⟩

/-- C2 witness: the positional formula applied to the concrete body
`["+a = 1", " c = 2", "+b = 3"]` with both starts 1: the second addition sits
at output index 1 and carries line `1 - 1 + 2 = 2`. -/
theorem hunk_change_line_numbers_witness :
    (processChangeLines emptyOracle (["+a = 1", " c = 2"] ++ "+b = 3" :: []) 1 1)[
        List.countP emitsChange ["+a = 1", " c = 2"]]?
      = some { line := 1 - 1 + List.countP advancesNew ["+a = 1", " c = 2"],
               text := pyDrop1 (pyStrip "+b = 3"), type := ChangeType.Addition,
               identifiers := parse_line emptyOracle (pyDrop1 (pyStrip "+b = 3")) } :=
  (hunk_change_line_numbers emptyOracle 1 1).1 ["+a = 1", " c = 2"] "+b = 3" [] (by decide)

theorem processBlocks_eq_of_sorted (captures : CaptureOracle) :
    ∀ (bq bsrc : List RawBlock),
      List.Forall₂ (fun b1 b2 => b1.old_file = b2.old_file ∧
        b1.new_file = b2.new_file ∧ b1.hunks.Perm b2.hunks) bq bsrc →
      (∀ bs ∈ bsrc, bs.hunks.Pairwise (fun r1 r2 => r1.start_byte < r2.start_byte)) →
      (∀ bs ∈ bsrc, ∀ r ∈ bs.hunks, WellFormedRawHunk r) →
      (bq.map (processBlock captures)).flatten =
        bsrc.flatMap (fun bs => bs.hunks.map
          (hunkOfRaw captures (blockFileName bs.old_file) (blockFileName bs.new_file))) := by
  intro bq bsrc h
  induction h with
  | nil => intro _ _; simp
  | @cons b1 b2 l1 l2 hb hrest ih =>
    intro hsorted hwf
    obtain ⟨hof, hnf, hperm⟩ := hb
    simp only [List.map_cons, List.flatten_cons, List.flatMap_cons]
    simp only [processBlock]
    rw [hof, hnf,
      pySortByKey_of_perm_of_strictSorted RawHunk.start_byte hperm
        (hsorted b2 (List.mem_cons_self b2 l2)),
      processHunks_of_wellFormed captures _ _ b2.hunks
        (hwf b2 (List.mem_cons_self b2 l2)),
      ih (fun bs hbs => hsorted bs (List.mem_cons_of_mem b2 hbs))
         (fun bs hbs => hwf bs (List.mem_cons_of_mem b2 hbs))]

/-- C3 counterexample: the two-block patch whose blocks sit at bytes 10
(`blockFirst`) and 50 (`blockSecond`) in the byte stream.  When the block
query returns the blocks reversed, the output hunk list is reversed too —
the code sorts the hunk captures inside a block by start byte but iterates
the block captures in exactly the order the query returned them — so the
Hunks do not appear in header order in the byte stream for every structural
query order, contradicting the claim; the second conjunct shows the output
simply follows the query order. -/
theorem hunk_order_follows_block_query_order :
    parse_diff_patch emptyOracle [blockSecond, blockFirst] "Python" =
      .ok [{ old_file := some "b.py", new_file := some "b.py",
             changes := [{ line := 1, text := "b = 2",
                           type := ChangeType.Addition, identifiers := [] }] },
           { old_file := some "a.py", new_file := some "a.py",
             changes := [{ line := 0, text := "a = 1",
                           type := ChangeType.Addition, identifiers := [] }] }] ∧
    parse_diff_patch emptyOracle [blockFirst, blockSecond] "Python" =
      .ok [{ old_file := some "a.py", new_file := some "a.py",
             changes := [{ line := 0, text := "a = 1",
                           type := ChangeType.Addition, identifiers := [] }] },
           { old_file := some "b.py", new_file := some "b.py",
             changes := [{ line := 1, text := "b = 2",
                           type := ChangeType.Addition, identifiers := [] }] }] ∧
    ({ old_file := some "b.py", new_file := some "b.py",
       changes := [{ line := 1, text := "b = 2",
                     type := ChangeType.Addition, identifiers := [] }] } : Hunk) ≠
      { old_file := some "a.py", new_file := some "a.py",
        changes := [{ line := 0, text := "a = 1",
                      type := ChangeType.Addition, identifiers := [] }] } :=
  ⟨by decide, by decide, by decide⟩

/-- C3 (amended): within each block, hunks are recovered in source order
regardless of the order the hunk query returns them, and every well-formed
hunk yields exactly one Hunk; across blocks, however, the code keeps the
block query's return order.  Formally: if the block query returns the blocks
of the source in source order (`blocksQ` aligned blockwise with `blocksSrc`)
with each block's hunks an arbitrary permutation of that block's
strictly-byte-ordered source hunks, the result is exactly one Hunk per hunk,
in source order block by block. -/
theorem hunks_sorted_within_block (captures : CaptureOracle) (lang : String)
    (k : ParserKind) (hl : getLanguageParser lang = .ok k)
    (blocksQ blocksSrc : List RawBlock)
    (hcorr : List.Forall₂ (fun b1 b2 => b1.old_file = b2.old_file ∧
      b1.new_file = b2.new_file ∧ b1.hunks.Perm b2.hunks) blocksQ blocksSrc)
    (hsorted : ∀ bs ∈ blocksSrc,
      bs.hunks.Pairwise (fun r1 r2 => r1.start_byte < r2.start_byte))
    (hwf : ∀ bs ∈ blocksSrc, ∀ r ∈ bs.hunks, WellFormedRawHunk r) :
    parse_diff_patch captures blocksQ lang =
      .ok (blocksSrc.flatMap (fun bs => bs.hunks.map
        (hunkOfRaw captures (blockFileName bs.old_file) (blockFileName bs.new_file)))) := by
  unfold parse_diff_patch
  rw [hl, show getLanguageParser "diff" = .ok ParserKind.diff from by decide]
  exact congrArg Except.ok
    (processBlocks_eq_of_sorted captures blocksQ blocksSrc hcorr hsorted hwf)

/-- C3 witness: a single block whose hunk query returns its two hunks (bytes
1 and 5) in reversed order still yields them sorted by source position. -/
theorem hunks_sorted_within_block_witness :
    parse_diff_patch emptyOracle [blockQueryOrder] "Python" =
      .ok ([blockSrcOrder].flatMap (fun bs => bs.hunks.map
        (hunkOfRaw emptyOracle (blockFileName bs.old_file) (blockFileName bs.new_file)))) :=
  hunks_sorted_within_block emptyOracle "Python" ParserKind.python (by decide)
    [blockQueryOrder] [blockSrcOrder]
    (List.Forall₂.cons ⟨rfl, rfl, List.Perm.swap hunkLow hunkHigh []⟩ List.Forall₂.nil)
    (by
      intro bs hbs
      obtain rfl : bs = blockSrcOrder := List.mem_singleton.mp hbs
      decide)
    (by
      intro bs hbs r hr
      obtain rfl : bs = blockSrcOrder := List.mem_singleton.mp hbs
      rcases List.mem_cons.mp hr with rfl | hr
      · exact ⟨⟨(1, 1), by decide⟩, ["+a = 1"], by decide⟩
      · obtain rfl : r = hunkHigh := List.mem_singleton.mp hr
        exact ⟨⟨(9, 9), by decide⟩, ["-b = 2"], by decide⟩)

/-- C4 counterexample: a hunk whose location header is absent
(`blockMissingHeader`, first hunk) is silently skipped — the call returns
normally with the remaining hunk, it does not fail with `MalformedDiffError`
(the source never raises such an error; its only raise site is the
language check) — and a hunk with a present but unparsable range
(`blockBadRange`, `int("x")` raises) makes the per-block handler swallow the
exception and return normally with the whole block dropped. -/
theorem malformed_hunks_silently_dropped :
    parse_diff_patch emptyOracle [blockMissingHeader] "Python" =
      .ok [{ old_file := some "f.py", new_file := some "f.py",
             changes := [{ line := 3, text := "a = 1",
                           type := ChangeType.Addition, identifiers := [] }] }] ∧
    parse_diff_patch emptyOracle [blockBadRange] "Python" = .ok [] :=
  ⟨by decide, by decide⟩

/-- C4 (amended): `parse_diff_patch` never raises for malformed hunks — once
the language tag resolves, it always returns a list — and it never fabricates
line numbers: every returned Hunk is built from a hunk node whose two range
starts were successfully parsed from its captured location header (hunks with
a missing or unparsable header contribute nothing; an unparsable present
range silently drops the rest of its block). -/
theorem no_fabricated_line_numbers (captures : CaptureOracle)
    (blocks : List RawBlock) (lang : String) (k : ParserKind)
    (hl : getLanguageParser lang = .ok k) :
    (∃ hs, parse_diff_patch captures blocks lang = .ok hs) ∧
    (∀ hs, parse_diff_patch captures blocks lang = .ok hs → ∀ h ∈ hs,
      ∃ b, b ∈ blocks ∧ ∃ r, r ∈ b.hunks ∧ ∃ ol nl lines,
        r.startsOf = some (ol, nl) ∧ r.changes = some lines ∧
        h = { old_file := blockFileName b.old_file,
              new_file := blockFileName b.new_file,
              changes := processChangeLines captures lines ol nl }) := by
  constructor
  · refine ⟨(blocks.map (processBlock captures)).flatten, ?_⟩
    unfold parse_diff_patch
    rw [hl, show getLanguageParser "diff" = .ok ParserKind.diff from by decide]
  · intro hs hok h hmem
    exact mem_parse_diff_patch captures blocks lang hs h hok hmem

/-- C4 witness: the amended statement applied to the patch with the
malformed first hunk: the one returned Hunk derives from the second hunk's
parsed starts 3 and 4. -/
theorem no_fabricated_line_numbers_witness :
    ∃ b, b ∈ [blockMissingHeader] ∧ ∃ r, r ∈ b.hunks ∧ ∃ ol nl lines,
      r.startsOf = some (ol, nl) ∧ r.changes = some lines ∧
      ({ old_file := some "f.py", new_file := some "f.py",
         changes := [{ line := 3, text := "a = 1",
                       type := ChangeType.Addition, identifiers := [] }] } : Hunk) =
        { old_file := blockFileName b.old_file,
          new_file := blockFileName b.new_file,
          changes := processChangeLines emptyOracle lines ol nl } :=
  (no_fabricated_line_numbers emptyOracle [blockMissingHeader] "Python"
      ParserKind.python (by decide)).2
    [{ old_file := some "f.py", new_file := some "f.py",
       changes := [{ line := 3, text := "a = 1",
                     type := ChangeType.Addition, identifiers := [] }] }]
    (by decide)
    { old_file := some "f.py", new_file := some "f.py",
      changes := [{ line := 3, text := "a = 1",
                    type := ChangeType.Addition, identifiers := [] }] }
    (by decide)

/-- C5 counterexample: `"python"` is not a case-sensitive exact match of any
canonical name (`"Python"`, `"Diff"`), yet grammar resolution succeeds and
`parse_diff_patch` proceeds normally with it: the source compares
`language.lower()` against lowercase names, so resolution is
case-insensitive. -/
theorem lowercase_tag_accepted :
    (("python" : String) ≠ "Python" ∧ ("python" : String) ≠ "Diff") ∧
    getLanguageParser "python" = .ok ParserKind.python ∧
    getLanguageParser "PYTHON" = .ok ParserKind.python ∧
    parse_diff_patch emptyOracle [] "python" = .ok [] :=
  ⟨⟨by decide, by decide⟩, by decide, by decide, by decide⟩

/-- C5 (amended): grammar resolution lowercases the tag and compares against
`"diff"` and `"python"`; any tag whose lowercase form is neither raises
`ValueError` (the specification's `UnsupportedLanguageError`), and
`parse_diff_patch` with such a tag propagates that error before touching the
patch — its result does not depend on the patch structure at all. -/
theorem unsupported_language_fails_before_parse (tag : String)
    (h1 : pyLower tag ≠ "diff") (h2 : pyLower tag ≠ "python") :
    getLanguageParser tag = .error (.valueError ("Unsupported language: " ++ tag)) ∧
    ∀ (captures : CaptureOracle) (blocks1 blocks2 : List RawBlock),
      parse_diff_patch captures blocks1 tag =
        .error (.valueError ("Unsupported language: " ++ tag)) ∧
      parse_diff_patch captures blocks1 tag = parse_diff_patch captures blocks2 tag := by
  have hg : getLanguageParser tag =
      .error (.valueError ("Unsupported language: " ++ tag)) := by
    unfold getLanguageParser
    rw [if_neg h1, if_neg h2]
  refine ⟨hg, fun captures blocks1 blocks2 => ⟨?_, ?_⟩⟩
  · unfold parse_diff_patch
    rw [hg]
  · unfold parse_diff_patch
    rw [hg]

/-- C5 witness: the tag `"Ruby"` fails resolution with `ValueError` and
`parse_diff_patch` fails identically without consuming the patch. -/
theorem unsupported_language_fails_before_parse_witness :
    getLanguageParser "Ruby" = .error (.valueError "Unsupported language: Ruby") ∧
    parse_diff_patch emptyOracle [blockScenario] "Ruby" =
      .error (.valueError "Unsupported language: Ruby") ∧
    parse_diff_patch emptyOracle [blockScenario] "Ruby" =
      parse_diff_patch emptyOracle [] "Ruby" := by
  have h := unsupported_language_fails_before_parse "Ruby" (by decide) (by decide)
  exact ⟨h.1.trans (by decide),
         (h.2 emptyOracle [blockScenario] []).1.trans (by decide),
         (h.2 emptyOracle [blockScenario] []).2⟩

/-- C6 counterexample: on the specification's concrete scenario the code does
not return the claimed hunk: the claimed Deletion line is 0, but the deleted
line `y = 2` is the second line of the old file (a context line precedes it
inside the hunk), so the old cursor has advanced to 2 and the emitted
zero-based line is 1. -/
theorem scenario_output_differs_from_claim :
    parse_diff_patch scenarioOracle [blockScenario] "Python" ≠
      .ok [scenarioClaimedHunk] := by
  decide

/-- C6 (amended): the scenario yields exactly one hunk with three changes —
Deletion at line 1 with text `y = 2` and identifiers `[{y,0}]`, Addition at
line 1 with text `y = 3` and identifiers `[{y,0}]`, Addition at line 2 with
text `z = y + 1` and identifiers `[{z,0},{y,4}]`. -/
theorem scenario_actual_output :
    parse_diff_patch scenarioOracle [blockScenario] "Python" =
      .ok [scenarioActualHunk] := by
  decide

/-- C7 counterexample: for the change line `+  x = 1` the code emits text
`  x = 1` — the whole line is stripped first and only then is the marker
removed, so whitespace sitting between the marker and the content survives —
whereas the claim's marker-stripped-then-trimmed text would be `x = 1`. -/
theorem change_text_keeps_inner_whitespace :
    parse_diff_patch emptyOracle [blockPaddedAdd] "Python" =
      .ok [{ old_file := some "h.py", new_file := some "h.py",
             changes := [{ line := 0, text := "  x = 1",
                           type := ChangeType.Addition, identifiers := [] }] }] ∧
    markerStrippedTrimmed "+  x = 1" = "x = 1" ∧
    ("  x = 1" : String) ≠ "x = 1" :=
  ⟨by decide, by decide, by decide⟩

/-- C7 (amended): every Change emitted by `parse_diff_patch` takes its text
from some change line of some hunk node of the patch as the
whitespace-stripped line with its single leading marker character removed —
trailing whitespace is trimmed, but whitespace following the marker is
preserved. -/
theorem change_text_is_stripped_remainder (captures : CaptureOracle)
    (blocks : List RawBlock) (lang : String) (hs : List Hunk)
    (hok : parse_diff_patch captures blocks lang = .ok hs) :
    ∀ h ∈ hs, ∀ ch ∈ h.changes, ∃ b r lines raw,
      b ∈ blocks ∧ r ∈ b.hunks ∧ r.changes = some lines ∧ raw ∈ lines ∧
      (pyStartsWith (pyStrip raw) '+' = true ∨ pyStartsWith (pyStrip raw) '-' = true) ∧
      ch.text = pyDrop1 (pyStrip raw) := by
  intro h hmem ch hch
  obtain ⟨b, hb, r, hr, ol, nl, lines, h1, h2, h3⟩ :=
    mem_parse_diff_patch captures blocks lang hs h hok hmem
  rw [h3] at hch
  obtain ⟨raw, hraw, hcls, htext, _⟩ :=
    processChangeLines_text_provenance captures lines ol nl ch hch
  exact ⟨b, r, lines, raw, hb, hr, h2, hraw, hcls, htext⟩

/-- C7 witness: the amended statement applied to the padded-addition patch
and its single emitted change. -/
theorem change_text_is_stripped_remainder_witness :
    ∃ b r lines raw,
      b ∈ [blockPaddedAdd] ∧ r ∈ b.hunks ∧ r.changes = some lines ∧ raw ∈ lines ∧
      (pyStartsWith (pyStrip raw) '+' = true ∨ pyStartsWith (pyStrip raw) '-' = true) ∧
      ({ line := 0, text := "  x = 1", type := ChangeType.Addition,
         identifiers := [] } : Change).text = pyDrop1 (pyStrip raw) :=
  change_text_is_stripped_remainder emptyOracle [blockPaddedAdd] "Python"
    [{ old_file := some "h.py", new_file := some "h.py",
       changes := [{ line := 0, text := "  x = 1",
                     type := ChangeType.Addition, identifiers := [] }] }]
    (by decide)
    { old_file := some "h.py", new_file := some "h.py",
      changes := [{ line := 0, text := "  x = 1",
                    type := ChangeType.Addition, identifiers := [] }] }
    (by decide)
    { line := 0, text := "  x = 1", type := ChangeType.Addition, identifiers := [] }
    (by decide)

/-- C8: for a line whose identifier query succeeds with captures at pairwise
distinct columns that all lie inside the line, `parse_line` returns the
captures (with empty-text ones dropped) sorted strictly ascending by
character, every character a valid zero-based offset into the line, and
duplicate names at distinct offsets all kept: the result is a permutation of
the capture list, one entry per capture.  Distinctness and in-bounds are
hypotheses on the capture oracle because they are guarantees of the external
grammar: distinct identifier tokens of one parsed line start at distinct
columns inside it. -/
theorem identifiers_sorted_and_in_range (captures : CaptureOracle)
    (line : String) (caps : List (String × Nat))
    (hok : captures line = .ok caps)
    (hdist : caps.Pairwise (fun p q => p.2 ≠ q.2))
    (hbound : ∀ p ∈ caps, p.2 < line.data.length) :
    (parse_line captures line).Pairwise (fun a b => a.character < b.character) ∧
    (∀ i ∈ parse_line captures line, i.character < line.data.length) ∧
    (parse_line captures line).Perm
      ((caps.filter (fun p => p.1 != "")).map (fun p => Identifier.mk p.1 p.2)) := by
  have hpl : parse_line captures line =
      pySortByKey Identifier.character
        ((caps.filter (fun p => p.1 != "")).map (fun p => Identifier.mk p.1 p.2)) := by
    unfold parse_line
    rw [hok]
  set mapped :=
    (caps.filter (fun p => p.1 != "")).map (fun p => Identifier.mk p.1 p.2) with hm
  have hperm : (pySortByKey Identifier.character mapped).Perm mapped :=
    pySortByKey_perm Identifier.character mapped
  have hne : mapped.Pairwise (fun a b => a.character ≠ b.character) := by
    rw [hm, List.pairwise_map]
    exact hdist.filter _
  refine ⟨?_, ?_, ?_⟩
  · rw [hpl]
    have hle := pySortByKey_pairwise Identifier.character mapped
    have hne' : (pySortByKey Identifier.character mapped).Pairwise
        (fun a b => a.character ≠ b.character) :=
      (hperm.pairwise_iff (fun h => Ne.symm h)).mpr hne
    exact (hle.and hne').imp (fun h => Nat.lt_of_le_of_ne h.1 h.2)
  · intro i hi
    rw [hpl] at hi
    have hmem : i ∈ mapped := hperm.mem_iff.mp hi
    rw [hm] at hmem
    obtain ⟨p, hp, rfl⟩ := List.mem_map.mp hmem
    exact hbound p (List.mem_filter.mp hp).1
  · rw [hpl]
    exact hperm

/-- C8 witness: the scenario line `z = y + 1`, whose captures are `z` at 0
and `y` at 4. -/
theorem identifiers_sorted_and_in_range_witness :
    (parse_line scenarioOracle "z = y + 1").Pairwise
      (fun a b => a.character < b.character) ∧
    (∀ i ∈ parse_line scenarioOracle "z = y + 1",
      i.character < "z = y + 1".data.length) ∧
    (parse_line scenarioOracle "z = y + 1").Perm
      (([("z", 0), ("y", 4)].filter (fun p => p.1 != "")).map
        (fun p => Identifier.mk p.1 p.2)) :=
  identifiers_sorted_and_in_range scenarioOracle "z = y + 1" [("z", 0), ("y", 4)]
    (by decide) (by decide) (by decide)

/-- C9: an internal failure of identifier extraction on one line (the parse
or the query raising) degrades to an empty identifier list for that change,
as does a parse that finds no identifiers; and the capture oracle cannot
influence anything in the output of `parse_diff_patch` except the identifier
lists themselves — with identifiers erased, the results under any two oracles
coincide, so a per-line failure never aborts the rest of the patch. -/
theorem extraction_failure_contained (c1 c2 : CaptureOracle) (line : String)
    (blocks : List RawBlock) (lang : String) :
    (∀ msg, c1 line = .error msg → parse_line c1 line = []) ∧
    (c1 line = .ok [] → parse_line c1 line = []) ∧
    (parse_diff_patch c1 blocks lang).map (List.map Hunk.forgetIdentifiers) =
      (parse_diff_patch c2 blocks lang).map (List.map Hunk.forgetIdentifiers) := by
  refine ⟨?_, ?_, parse_diff_patch_forget c1 c2 blocks lang⟩
  · intro msg h
    unfold parse_line
    rw [h]
  · intro h
    unfold parse_line
    rw [h]
    rfl

/-- C9 witness: an oracle that always raises extracts nothing from `y = 3`,
and the scenario patch parsed under the always-raising oracle matches the
scenario oracle's result up to identifier lists. -/
theorem extraction_failure_contained_witness :
    parse_line failingOracle "y = 3" = [] ∧
    (parse_diff_patch failingOracle [blockScenario] "Python").map
        (List.map Hunk.forgetIdentifiers) =
      (parse_diff_patch scenarioOracle [blockScenario] "Python").map
        (List.map Hunk.forgetIdentifiers) :=
  ⟨(extraction_failure_contained failingOracle scenarioOracle "y = 3"
      [blockScenario] "Python").1 "query raised" rfl,
   (extraction_failure_contained failingOracle scenarioOracle "y = 3"
      [blockScenario] "Python").2.2⟩

/-- C10: `parse_diff_patch` is a pure function of its inputs.  The effectful
embedding carries the two ambient effects the source touches — the shared
logger and `time.time()` — as an explicit clock stream and log output; the
returned value coincides with the pure function whatever the clock holds, and
re-running the call from the ambient state the first run left behind returns
a structurally identical result. -/
theorem parse_diff_patch_deterministic (captures : CaptureOracle)
    (blocks : List RawBlock) (lang : String) (clock : List Int) :
    (parse_diff_patch_logged captures blocks lang clock).1 =
      parse_diff_patch captures blocks lang ∧
    (parse_diff_patch_logged captures blocks lang
        (parse_diff_patch_logged captures blocks lang clock).2.2).1 =
      (parse_diff_patch_logged captures blocks lang clock).1 := by
  refine ⟨parse_diff_patch_logged_fst captures blocks lang clock, ?_⟩
  rw [parse_diff_patch_logged_fst, parse_diff_patch_logged_fst]
